import Mathlib

/-!
# Verification of the vector segment file format

Shallow embedding of `src/post-06-binary-file-formats/code/segment-format.rs`.

Modelling conventions:
* A file / byte stream is a `List Nat` of bytes; the writer produces the byte
  list it would write, the readers consume a byte list together with an
  explicit stream position (`seek` sets that position).
* A 32-bit float is modelled by its 32-bit little-endian bit pattern
  (a `Nat` below `2^32`), so bit-for-bit equality of floats is plain equality;
  `f32::to_le_bytes` / `f32::from_le_bytes` are the byte conversions below.
* Rust machine arithmetic is modelled on `Nat` with explicit reduction
  modulo `2^32` (`u32`, numeral `4294967296`) or `2^64` (`u64`, numeral
  `18446744073709551616`) where the source performs wrapping machine
  arithmetic (`as` casts, release-mode `+`/`*`).
* `io::Error` values are modelled by the inductive `Err`; `read_exact`'s
  end-of-file failure is `Err.unexpectedEof` (the spec's `TruncatedInput`),
  and the `InvalidData` / `InvalidInput` errors keep the values that the
  source interpolates into their messages.
-/

deriving instance DecidableEq for Except

namespace SegmentFormat

/-- A byte stream (file contents): a list of bytes. -/
abbrev Bytes := List Nat

/-- Errors of the segment reader/writer, mirroring the `io::Error` values the
source constructs.  `unexpectedEof` models a failing `read_exact`
(`TruncatedInput` in the spec); `invalidMagic` and `unsupportedVersion` model
the two `InvalidData` errors of `SegmentHeader::read`; the remaining
constructors carry the values interpolated into the source's messages. -/
inductive Err where
  | unexpectedEof : Err
  | invalidMagic (got : Bytes) : Err
  | unsupportedVersion (got : Nat) : Err
  | indexOutOfBounds (index count : Nat) : Err
  | rangeOutOfBounds (start stop count : Nat) : Err
  | dimensionMismatch (index got expected : Nat) : Err
  deriving DecidableEq

/-- The `Vector` struct: f32 components (as 32-bit patterns) plus the
key/value metadata map (modelled as an association list). -/
structure Vector where
  data : List Nat
  metadata : List (String × String)
  deriving DecidableEq

/-- `Vector::new`: fresh vector with empty metadata. -/
def Vector.new (data : List Nat) : Vector := ⟨data, []⟩

/-- `Vector::dimension`: the component count. -/
def Vector.dimension (v : Vector) : Nat := v.data.length

/-- Magic bytes `b"VECT"`. -/
def MAGIC : Bytes := [86, 69, 67, 84]

/-- Current format version. -/
def VERSION : Nat := 1

/-- Header size in bytes (magic + version + count + dimension). -/
def HEADER_SIZE : Nat := 16

/-- `n`-byte little-endian encoding of `v` (mod `2^(8*n)`), as in
`u32::to_le_bytes` / `f32::to_le_bytes`. -/
def toLeBytes : Nat → Nat → Bytes
  | _, 0 => []
  | v, n + 1 => v % 256 :: toLeBytes (v / 256) n

/-- Little-endian value of a byte list, as in `u32::from_le_bytes` /
`f32::from_le_bytes`. -/
def leVal : Bytes → Nat
  | [] => 0
  | b :: rest => b + 256 * leVal rest

/-- `Read::read_exact` into an `n`-byte buffer from stream position `pos`:
succeeds exactly when `n` bytes remain, returning them and the advanced
position. -/
def read_exact (buf : Bytes) (pos n : Nat) : Except Err (Bytes × Nat) :=
  if pos + n ≤ buf.length then .ok ((buf.drop pos).take n, pos + n)
  else .error .unexpectedEof

/-- `read_u32`: four bytes, little-endian. -/
def read_u32 (buf : Bytes) (pos : Nat) : Except Err (Nat × Nat) :=
  match read_exact buf pos 4 with
  | .error e => .error e
  | .ok (bs, p) => .ok (leVal bs, p)

/-- `read_f32`: four bytes, little-endian bit pattern. -/
def read_f32 (buf : Bytes) (pos : Nat) : Except Err (Nat × Nat) :=
  read_u32 buf pos

/-- The `SegmentHeader` struct (all fields `u32` in the source). -/
structure SegmentHeader where
  version : Nat
  count : Nat
  dimension : Nat
  deriving DecidableEq

/-- `SegmentHeader::data_offset`. -/
def SegmentHeader.data_offset (_ : SegmentHeader) : Nat := HEADER_SIZE

/-- `SegmentHeader::file_size`:
`HEADER_SIZE + (self.count as u64 * self.dimension as u64 * 4)`, computed in
`u64` (wrapping modulo `2^64`). -/
def SegmentHeader.file_size (h : SegmentHeader) : Nat :=
  (HEADER_SIZE + h.count * h.dimension * 4) % 18446744073709551616

/-- `SegmentHeader::vector_offset`:
`HEADER_SIZE + (index as u64 * self.dimension as u64 * 4)`, computed in
`u64` (wrapping modulo `2^64`). -/
def SegmentHeader.vector_offset (h : SegmentHeader) (index : Nat) : Nat :=
  (HEADER_SIZE + index * h.dimension * 4) % 18446744073709551616

/-- `SegmentHeader::write`: magic, then version, count, dimension as
little-endian `u32`s. -/
def SegmentHeader.writeBytes (h : SegmentHeader) : Bytes :=
  MAGIC ++ toLeBytes h.version 4 ++ toLeBytes h.count 4 ++ toLeBytes h.dimension 4

/-- `SegmentHeader::read`: validate magic, then version, then read count and
dimension. -/
def SegmentHeader.read (buf : Bytes) (pos : Nat) :
    Except Err (SegmentHeader × Nat) :=
  match read_exact buf pos 4 with
  | .error e => .error e
  | .ok (magic, p1) =>
    if magic = MAGIC then
      match read_u32 buf p1 with
      | .error e => .error e
      | .ok (version, p2) =>
        if version = VERSION then
          match read_u32 buf p2 with
          | .error e => .error e
          | .ok (count, p3) =>
            match read_u32 buf p3 with
            | .error e => .error e
            | .ok (dimension, p4) => .ok (⟨version, count, dimension⟩, p4)
        else .error (.unsupportedVersion version)
    else .error (.invalidMagic magic)

/-- Bytes of a vector's components in order (`write_f32` per component). -/
def floatsToBytes : List Nat → Bytes
  | [] => []
  | x :: rest => toLeBytes x 4 ++ floatsToBytes rest

/-- The writing loop of `write_segment`: index `i` is the running
`enumerate` index; each vector's dimension, cast `as u32`, is compared with
the established dimension before its components are written. -/
def writeVectors : List Vector → Nat → Nat → Except Err Bytes
  | [], _, _ => .ok []
  | v :: rest, dim, i =>
    if v.dimension % 4294967296 = dim then
      match writeVectors rest dim (i + 1) with
      | .error e => .error e
      | .ok tail => .ok (floatsToBytes v.data ++ tail)
    else .error (.dimensionMismatch i v.dimension dim)

/-- `write_segment`: header (version, `len as u32`, dimension from the first
vector `as u32`) followed by the vectors' raw components.  The produced byte
list is the file contents on success. -/
def write_segment (vectors : List Vector) : Except Err Bytes :=
  let dimension :=
    (match vectors.head? with
     | some v => v.dimension
     | none => 0) % 4294967296
  match writeVectors vectors dimension 0 with
  | .error e => .error e
  | .ok body =>
    .ok ((SegmentHeader.mk VERSION (vectors.length % 4294967296) dimension).writeBytes
          ++ body)

/-- The inner `for _ in 0..header.dimension` loop: read `n` floats
sequentially. -/
def readFloats (buf : Bytes) : Nat → Nat → Except Err (List Nat × Nat)
  | pos, 0 => .ok ([], pos)
  | pos, n + 1 =>
    match read_f32 buf pos with
    | .error e => .error e
    | .ok (v, p) =>
      match readFloats buf p n with
      | .error e => .error e
      | .ok (rest, p2) => .ok (v :: rest, p2)

/-- The outer `for _ in 0..count` loop: read `c` vectors of `dim` floats
each, wrapping each in `Vector::new`. -/
def readVectorsLoop (buf : Bytes) : Nat → Nat → Nat → Except Err (List Vector × Nat)
  | pos, 0, _ => .ok ([], pos)
  | pos, c + 1, dim =>
    match readFloats buf pos dim with
    | .error e => .error e
    | .ok (data, p) =>
      match readVectorsLoop buf p c dim with
      | .error e => .error e
      | .ok (rest, p2) => .ok (Vector.new data :: rest, p2)

/-- `read_segment`: header, then all `count` vectors sequentially. -/
def read_segment (buf : Bytes) : Except Err (List Vector) :=
  match SegmentHeader.read buf 0 with
  | .error e => .error e
  | .ok (header, pos) =>
    match readVectorsLoop buf pos header.count header.dimension with
    | .error e => .error e
    | .ok (vectors, _) => .ok vectors

/-- `read_segment_header`: only the header. -/
def read_segment_header (buf : Bytes) : Except Err SegmentHeader :=
  match SegmentHeader.read buf 0 with
  | .error e => .error e
  | .ok (header, _) => .ok header

/-- `read_vector_at`: header, bounds check `index >= count`, seek to
`vector_offset(index)`, read one vector. -/
def read_vector_at (buf : Bytes) (index : Nat) : Except Err Vector :=
  match SegmentHeader.read buf 0 with
  | .error e => .error e
  | .ok (header, _) =>
    if header.count ≤ index then
      .error (.indexOutOfBounds index header.count)
    else
      match readFloats buf (header.vector_offset index) header.dimension with
      | .error e => .error e
      | .ok (data, _) => .ok (Vector.new data)

/-- `read_vectors_range`: header, bounds check `start + count > header.count`
(a `u32` addition, so it wraps modulo `2^32`), seek to `vector_offset(start)`,
read `count` vectors. -/
def read_vectors_range (buf : Bytes) (start count : Nat) :
    Except Err (List Vector) :=
  match SegmentHeader.read buf 0 with
  | .error e => .error e
  | .ok (header, _) =>
    if header.count < (start + count) % 4294967296 then
      .error (.rangeOutOfBounds start ((start + count) % 4294967296) header.count)
    else
      match readVectorsLoop buf (header.vector_offset start) count header.dimension with
      | .error e => .error e
      | .ok (vectors, _) => .ok vectors

/-- Byte image of the payload: each vector's components, in order. -/
def segBody : List Vector → Bytes
  | [] => []
  | v :: rest => floatsToBytes v.data ++ segBody rest

/-- Byte image of a header with the supported version and the given count
and dimension. -/
def headerBytes (c d : Nat) : Bytes := (SegmentHeader.mk VERSION c d).writeBytes

/-! ## Basic facts about the byte-level codecs -/

theorem toLeBytes_length (v n : Nat) : (toLeBytes v n).length = n := by
  induction n generalizing v with
  | zero => rfl
  | succ n ih => simp [toLeBytes, ih]

theorem leVal_toLeBytes (n v : Nat) (h : v < 2 ^ (8 * n)) :
    leVal (toLeBytes v n) = v := by
  induction n generalizing v with
  | zero =>
      simp only [Nat.mul_zero, pow_zero, Nat.lt_one_iff] at h
      simp [toLeBytes, leVal, h]
  | succ n ih =>
      have hp : (2 : Nat) ^ (8 * (n + 1)) = 2 ^ (8 * n) * 256 := by ring
      have hv : v / 256 < 2 ^ (8 * n) := by
        have h2 : v < 2 ^ (8 * n) * 256 := hp ▸ h
        omega
      simp only [toLeBytes, leVal, ih _ hv]
      omega

theorem leVal_lt (bs : Bytes) (h : ∀ b ∈ bs, b < 256) :
    leVal bs < 2 ^ (8 * bs.length) := by
  induction bs with
  | nil => simp [leVal]
  | cons b rest ih =>
      have hb : b < 256 := h b (by simp)
      have hr := ih (fun x hx => h x (by simp [hx]))
      have hp : (2 : Nat) ^ (8 * (rest.length + 1)) = 2 ^ (8 * rest.length) * 256 := by
        ring
      simp only [leVal, List.length_cons, hp]
      omega

theorem floatsToBytes_length (data : List Nat) :
    (floatsToBytes data).length = 4 * data.length := by
  induction data with
  | nil => rfl
  | cons x rest ih =>
      simp [floatsToBytes, toLeBytes_length, ih]
      ring

theorem segBody_length (vs : List Vector) (d : Nat)
    (hd : ∀ v ∈ vs, v.data.length = d) :
    (segBody vs).length = 4 * d * vs.length := by
  induction vs with
  | nil => rfl
  | cons v rest ih =>
      have hv : v.data.length = d := hd v (by simp)
      have hr := ih (fun w hw => hd w (by simp [hw]))
      simp [segBody, floatsToBytes_length, hv, hr]
      ring

/-- Dropping past a known decomposition of the remaining stream. -/
theorem drop_after (buf a t : Bytes) (pos : Nat) (h : buf.drop pos = a ++ t) :
    buf.drop (pos + a.length) = t := by
  have h2 : (buf.drop pos).drop a.length = t := by
    rw [h]; exact List.drop_left a t
  rw [List.drop_drop] at h2
  exact h2

theorem read_exact_eq (buf a t : Bytes) (pos : Nat)
    (h : buf.drop pos = a ++ t) (ha : 0 < a.length) :
    read_exact buf pos a.length = .ok (a, pos + a.length) := by
  have hlen : pos + a.length ≤ buf.length := by
    have hcongr := congrArg List.length h
    simp only [List.length_drop, List.length_append] at hcongr
    omega
  unfold read_exact
  rw [if_pos hlen, h, List.take_left]

theorem read_u32_eq (buf t : Bytes) (pos v : Nat) (hv : v < 4294967296)
    (h : buf.drop pos = toLeBytes v 4 ++ t) :
    read_u32 buf pos = .ok (v, pos + 4) := by
  have h4 : (toLeBytes v 4).length = 4 := toLeBytes_length v 4
  have hre := read_exact_eq buf (toLeBytes v 4) t pos h (by omega)
  rw [h4] at hre
  have hval : leVal (toLeBytes v 4) = v := by
    refine leVal_toLeBytes 4 v ?_
    norm_num
    omega
  unfold read_u32
  rw [hre]
  simp [hval]

theorem read_exact_inv (buf a : Bytes) (pos n p : Nat)
    (h : read_exact buf pos n = .ok (a, p)) :
    p = pos + n ∧ pos + n ≤ buf.length ∧ a = (buf.drop pos).take n := by
  unfold read_exact at h
  split at h
  · simp only [Except.ok.injEq, Prod.mk.injEq] at h
    exact ⟨h.2.symm, by assumption, h.1.symm⟩
  · exact absurd h (by simp)

theorem read_exact_err (buf : Bytes) (pos n : Nat) (e : Err)
    (h : read_exact buf pos n = .error e) : e = .unexpectedEof := by
  unfold read_exact at h
  split at h
  · exact absurd h (by simp)
  · simp only [Except.error.injEq] at h
    exact h.symm

theorem read_u32_inv (buf : Bytes) (pos v p : Nat)
    (h : read_u32 buf pos = .ok (v, p)) :
    p = pos + 4 ∧ pos + 4 ≤ buf.length ∧ v = leVal ((buf.drop pos).take 4) := by
  unfold read_u32 at h
  cases hre : read_exact buf pos 4 with
  | error e => rw [hre] at h; exact absurd h (by simp)
  | ok r =>
      obtain ⟨bs, q⟩ := r
      rw [hre] at h
      simp only [Except.ok.injEq, Prod.mk.injEq] at h
      obtain ⟨h1, h2, h3⟩ := read_exact_inv buf bs pos 4 q hre
      exact ⟨h.2 ▸ h1, h2, by rw [← h.1, h3]⟩

theorem read_u32_err (buf : Bytes) (pos : Nat) (e : Err)
    (h : read_u32 buf pos = .error e) : e = .unexpectedEof := by
  unfold read_u32 at h
  cases hre : read_exact buf pos 4 with
  | error e' =>
      rw [hre] at h
      simp only [Except.error.injEq] at h
      exact h ▸ read_exact_err buf pos 4 e' hre
  | ok r => rw [hre] at h; exact absurd h (by simp)

/-! ## Header encode/decode -/

/-- Reading a header laid out by `headerBytes` (supported version, fields
below `2^32`) succeeds and leaves the stream position at byte 16, no matter
what follows the 16 header bytes. -/
theorem header_read_ok (c d : Nat) (rest : Bytes)
    (hc : c < 4294967296) (hd : d < 4294967296) :
    SegmentHeader.read (headerBytes c d ++ rest) 0 = .ok (⟨VERSION, c, d⟩, 16) := by
  set buf := headerBytes c d ++ rest with hbuf
  have h0 : buf.drop 0 =
      MAGIC ++ (toLeBytes 1 4 ++ (toLeBytes c 4 ++ (toLeBytes d 4 ++ rest))) := by
    simp [hbuf, headerBytes, SegmentHeader.writeBytes, VERSION, List.append_assoc]
  have hm : read_exact buf 0 4 = .ok (MAGIC, 4) := by
    have := read_exact_eq buf MAGIC _ 0 h0 (by simp [MAGIC])
    simpa [MAGIC] using this
  have h1 : buf.drop 4 = toLeBytes 1 4 ++ (toLeBytes c 4 ++ (toLeBytes d 4 ++ rest)) := by
    have := drop_after buf MAGIC _ 0 h0
    simpa [MAGIC] using this
  have hv : read_u32 buf 4 = .ok (1, 8) := read_u32_eq buf _ 4 1 (by norm_num) h1
  have h2 : buf.drop 8 = toLeBytes c 4 ++ (toLeBytes d 4 ++ rest) := by
    have := drop_after buf (toLeBytes 1 4) _ 4 h1
    simpa [toLeBytes_length] using this
  have hcread : read_u32 buf 8 = .ok (c, 12) := read_u32_eq buf _ 8 c hc h2
  have h3 : buf.drop 12 = toLeBytes d 4 ++ rest := by
    have := drop_after buf (toLeBytes c 4) _ 8 h2
    simpa [toLeBytes_length] using this
  have hdread : read_u32 buf 12 = .ok (d, 16) := read_u32_eq buf _ 12 d hd h3
  unfold SegmentHeader.read
  simp [hm, hv, hcread, hdread, VERSION]

/-- Any successful header read advances the position by exactly 16 bytes. -/
theorem header_read_adv (buf : Bytes) (hdr : SegmentHeader) (pos p : Nat)
    (h : SegmentHeader.read buf pos = .ok (hdr, p)) : p = pos + 16 := by
  unfold SegmentHeader.read at h
  cases hm : read_exact buf pos 4 with
  | error e => simp [hm] at h
  | ok r1 =>
    obtain ⟨magic, p1⟩ := r1
    simp only [hm] at h
    have hp1 : p1 = pos + 4 := (read_exact_inv buf magic pos 4 p1 hm).1
    by_cases hmg : magic = MAGIC
    · rw [if_pos hmg] at h
      cases hv : read_u32 buf p1 with
      | error e => simp [hv] at h
      | ok r2 =>
        obtain ⟨version, p2⟩ := r2
        simp only [hv] at h
        have hp2 : p2 = p1 + 4 := (read_u32_inv buf p1 version p2 hv).1
        by_cases hver : version = VERSION
        · rw [if_pos hver] at h
          cases hcr : read_u32 buf p2 with
          | error e => simp [hcr] at h
          | ok r3 =>
            obtain ⟨count, p3⟩ := r3
            simp only [hcr] at h
            have hp3 : p3 = p2 + 4 := (read_u32_inv buf p2 count p3 hcr).1
            cases hdr' : read_u32 buf p3 with
            | error e => simp [hdr'] at h
            | ok r4 =>
              obtain ⟨dimension, p4⟩ := r4
              simp only [hdr'] at h
              have hp4 : p4 = p3 + 4 := (read_u32_inv buf p3 dimension p4 hdr').1
              simp only [Except.ok.injEq, Prod.mk.injEq] at h
              omega
        · rw [if_neg hver] at h; exact absurd h (by simp)
    · rw [if_neg hmg] at h; exact absurd h (by simp)

/-! ## Write path -/

theorem writeVectors_ok (vs : List Vector) (dim : Nat)
    (hd : ∀ v ∈ vs, v.data.length % 4294967296 = dim) :
    ∀ i, writeVectors vs dim i = .ok (segBody vs) := by
  induction vs with
  | nil => intro i; rfl
  | cons v rest ih =>
      intro i
      have hv : v.data.length % 4294967296 = dim := hd v (by simp)
      have hr := ih (fun w hw => hd w (by simp [hw])) (i + 1)
      simp [writeVectors, Vector.dimension, hv, hr, segBody]

/-- `write_segment` on a non-empty family of equal-length vectors emits the
header followed by the packed components. -/
theorem write_segment_eq (vs : List Vector) (d : Nat) (hne : vs ≠ [])
    (hd : ∀ v ∈ vs, v.data.length = d) (hdim : d < 4294967296) :
    write_segment vs = .ok (headerBytes (vs.length % 4294967296) d ++ segBody vs) := by
  obtain ⟨v, rest, rfl⟩ := List.exists_cons_of_ne_nil hne
  have hdv : v.data.length = d := hd v (by simp)
  have hmod : ∀ w ∈ v :: rest, w.data.length % 4294967296 = d := by
    intro w hw
    rw [hd w hw, Nat.mod_eq_of_lt hdim]
  have hw := writeVectors_ok (v :: rest) d hmod 0
  simp only [write_segment, List.head?_cons, Vector.dimension, hdv,
    Nat.mod_eq_of_lt hdim, hw, headerBytes]

/-- The writing loop fails at the first vector whose length, cast `as u32`,
differs from the established dimension, reporting the running index, the
vector's (uncast) length and the expected dimension. -/
theorem writeVectors_first_mismatch (good : List Vector) (bad : Vector)
    (rest : List Vector) (dim : Nat)
    (hgood : ∀ v ∈ good, v.data.length % 4294967296 = dim)
    (hbad : bad.data.length % 4294967296 ≠ dim) :
    ∀ i, writeVectors (good ++ bad :: rest) dim i
      = .error (.dimensionMismatch (i + good.length) bad.data.length dim) := by
  induction good with
  | nil =>
      intro i
      simp [writeVectors, Vector.dimension, hbad]
  | cons g gs ih =>
      intro i
      have hg : g.data.length % 4294967296 = dim := hgood g (by simp)
      have hr := ih (fun w hw => hgood w (by simp [hw])) (i + 1)
      have harith : i + 1 + gs.length = i + (gs.length + 1) := by omega
      simp [List.cons_append, writeVectors, Vector.dimension, hg, hr, harith]

/-! ## Read path, structured buffers -/

theorem readFloats_eq (buf : Bytes) (data : List Nat) (t : Bytes) (pos : Nat)
    (hlt : ∀ x ∈ data, x < 4294967296)
    (h : buf.drop pos = floatsToBytes data ++ t) :
    readFloats buf pos data.length = .ok (data, pos + 4 * data.length) := by
  induction data generalizing pos with
  | nil => simp [readFloats]
  | cons x rest ih =>
      have hx : x < 4294967296 := hlt x (by simp)
      have h' : buf.drop pos = toLeBytes x 4 ++ (floatsToBytes rest ++ t) := by
        simpa [floatsToBytes, List.append_assoc] using h
      have hr : read_u32 buf pos = .ok (x, pos + 4) := read_u32_eq buf _ pos x hx h'
      have hdrop : buf.drop (pos + 4) = floatsToBytes rest ++ t := by
        have := drop_after buf (toLeBytes x 4) _ pos h'
        simpa [toLeBytes_length] using this
      have ihr := ih (pos + 4) (fun y hy => hlt y (by simp [hy])) hdrop
      have harith : pos + 4 + 4 * rest.length = pos + 4 * (rest.length + 1) := by ring
      simp only [List.length_cons, readFloats, read_f32, hr, ihr, harith]

theorem readVectorsLoop_eq (buf : Bytes) (vs : List Vector) (t : Bytes) (d : Nat)
    (hd : ∀ v ∈ vs, v.data.length = d)
    (hlt : ∀ v ∈ vs, ∀ x ∈ v.data, x < 4294967296) :
    ∀ pos, buf.drop pos = segBody vs ++ t →
      readVectorsLoop buf pos vs.length d
        = .ok (vs.map (fun v => Vector.new v.data), pos + 4 * d * vs.length) := by
  induction vs with
  | nil => intro pos h; simp [readVectorsLoop]
  | cons v rest ih =>
      intro pos h
      have hdv : v.data.length = d := hd v (by simp)
      have h' : buf.drop pos = floatsToBytes v.data ++ (segBody rest ++ t) := by
        simpa [segBody, List.append_assoc] using h
      have hf := readFloats_eq buf v.data _ pos (hlt v (by simp)) h'
      rw [hdv] at hf
      have hdrop : buf.drop (pos + 4 * d) = segBody rest ++ t := by
        have := drop_after buf (floatsToBytes v.data) _ pos h'
        simpa [floatsToBytes_length, hdv] using this
      have ihr := ih (fun w hw => hd w (by simp [hw]))
        (fun w hw => hlt w (by simp [hw])) (pos + 4 * d) hdrop
      have harith : pos + 4 * d + 4 * d * rest.length = pos + 4 * d * (rest.length + 1) := by
        ring
      simp only [List.length_cons, readVectorsLoop, hf, ihr, harith, List.map_cons]

/-! ## Read path, inversion -/

theorem readFloats_inv (buf : Bytes) :
    ∀ (n pos : Nat) (data : List Nat) (p : Nat),
      readFloats buf pos n = .ok (data, p) →
      p = pos + 4 * n ∧ data.length = n ∧ (0 < n → pos + 4 * n ≤ buf.length) := by
  intro n
  induction n with
  | zero =>
      intro pos data p h
      simp only [readFloats, Except.ok.injEq, Prod.mk.injEq] at h
      refine ⟨by omega, by simp [← h.1], by omega⟩
  | succ n ih =>
      intro pos data p h
      simp only [readFloats, read_f32] at h
      cases hv : read_u32 buf pos with
      | error e => simp [hv] at h
      | ok r1 =>
        obtain ⟨v, p1⟩ := r1
        simp only [hv] at h
        obtain ⟨hp1, hle, -⟩ := read_u32_inv buf pos v p1 hv
        cases hr : readFloats buf p1 n with
        | error e => simp [hr] at h
        | ok r2 =>
          obtain ⟨rest, p2⟩ := r2
          simp only [hr, Except.ok.injEq, Prod.mk.injEq] at h
          obtain ⟨h1, h2, h3⟩ := ih p1 rest p2 hr
          refine ⟨by omega, by simp [← h.1, h2], ?_⟩
          intro _
          rcases Nat.eq_zero_or_pos n with hn | hn
          · omega
          · have := h3 hn; omega

theorem readFloats_err (buf : Bytes) :
    ∀ (n pos : Nat) (e : Err),
      readFloats buf pos n = .error e → e = .unexpectedEof := by
  intro n
  induction n with
  | zero => intro pos e h; simp [readFloats] at h
  | succ n ih =>
      intro pos e h
      simp only [readFloats, read_f32] at h
      cases hv : read_u32 buf pos with
      | error e' =>
          simp only [hv, Except.error.injEq] at h
          exact h ▸ read_u32_err buf pos e' hv
      | ok r1 =>
        obtain ⟨v, p1⟩ := r1
        simp only [hv] at h
        cases hr : readFloats buf p1 n with
        | error e' =>
            simp only [hr, Except.error.injEq] at h
            exact h ▸ ih p1 e' hr
        | ok r2 => obtain ⟨rest, p2⟩ := r2; simp [hr] at h

theorem readVectorsLoop_inv (buf : Bytes) (d : Nat) :
    ∀ (c pos : Nat) (ws : List Vector) (p : Nat),
      readVectorsLoop buf pos c d = .ok (ws, p) →
      ws.length = c ∧ p = pos + 4 * d * c
      ∧ (∀ i (hi : i < ws.length),
          readFloats buf (pos + 4 * d * i) d
            = .ok (ws[i].data, pos + 4 * d * i + 4 * d)
          ∧ ws[i].metadata = [])
      ∧ (0 < d → 0 < c → pos + 4 * d * c ≤ buf.length) := by
  intro c
  induction c with
  | zero =>
      intro pos ws p h
      simp only [readVectorsLoop, Except.ok.injEq, Prod.mk.injEq] at h
      refine ⟨by simp [← h.1], by omega, ?_, by omega⟩
      intro i hi
      rw [← h.1] at hi
      exact absurd hi (by simp)
  | succ c ih =>
      intro pos ws p h
      simp only [readVectorsLoop] at h
      cases hf : readFloats buf pos d with
      | error e => simp [hf] at h
      | ok r1 =>
        obtain ⟨data, p1⟩ := r1
        simp only [hf] at h
        obtain ⟨hp1, hdl, hb1⟩ := readFloats_inv buf d pos data p1 hf
        cases hr : readVectorsLoop buf p1 c d with
        | error e => simp [hr] at h
        | ok r2 =>
          obtain ⟨rest, p2⟩ := r2
          simp only [hr, Except.ok.injEq, Prod.mk.injEq] at h
          obtain ⟨hlen, hp2, hidx, hbound⟩ := ih p1 rest p2 hr
          have hmul : 4 * d * (c + 1) = 4 * d * c + 4 * d := by ring
          have hws : ws = Vector.new data :: rest := h.1.symm
          subst hws
          refine ⟨by simp [hlen], by omega, ?_, ?_⟩
          · intro i hi
            cases i with
            | zero =>
                have hzero : 4 * d * 0 = 0 := by ring
                refine ⟨?_, by simp [Vector.new]⟩
                simp only [List.getElem_cons_zero, hzero, Nat.add_zero, Vector.new]
                rw [← hp1]
                exact hf
            | succ j =>
                have hj : j < rest.length := by
                  simp only [List.length_cons] at hi
                  omega
                have := hidx j hj
                have harith : p1 + 4 * d * j = pos + 4 * d * (j + 1) := by
                  rw [hp1]; ring
                rw [harith] at this
                simpa using this
          · intro hdpos _
            rcases Nat.eq_zero_or_pos c with hc | hc
            · subst hc; omega
            · have := hbound hdpos hc; omega

theorem readVectorsLoop_err (buf : Bytes) (d : Nat) :
    ∀ (c pos : Nat) (e : Err),
      readVectorsLoop buf pos c d = .error e → e = .unexpectedEof := by
  intro c
  induction c with
  | zero => intro pos e h; simp [readVectorsLoop] at h
  | succ c ih =>
      intro pos e h
      simp only [readVectorsLoop] at h
      cases hf : readFloats buf pos d with
      | error e' =>
          simp only [hf, Except.error.injEq] at h
          exact h ▸ readFloats_err buf d pos e' hf
      | ok r1 =>
        obtain ⟨data, p1⟩ := r1
        simp only [hf] at h
        cases hr : readVectorsLoop buf p1 c d with
        | error e' =>
            simp only [hr, Except.error.injEq] at h
            exact h ▸ ih p1 e' hr
        | ok r2 => obtain ⟨rest, p2⟩ := r2; simp [hr] at h

theorem readVectorsLoop_metadata (buf : Bytes) (d : Nat) :
    ∀ (c pos : Nat) (ws : List Vector) (p : Nat),
      readVectorsLoop buf pos c d = .ok (ws, p) → ∀ v ∈ ws, v.metadata = [] := by
  intro c
  induction c with
  | zero =>
      intro pos ws p h
      simp only [readVectorsLoop, Except.ok.injEq, Prod.mk.injEq] at h
      rw [← h.1]
      simp
  | succ c ih =>
      intro pos ws p h
      simp only [readVectorsLoop] at h
      cases hf : readFloats buf pos d with
      | error e => simp [hf] at h
      | ok r1 =>
        obtain ⟨data, p1⟩ := r1
        simp only [hf] at h
        cases hr : readVectorsLoop buf p1 c d with
        | error e => simp [hr] at h
        | ok r2 =>
          obtain ⟨rest, p2⟩ := r2
          simp only [hr, Except.ok.injEq, Prod.mk.injEq] at h
          rw [← h.1]
          intro v hv
          rcases List.mem_cons.mp hv with hv | hv
          · rw [hv]; rfl
          · exact ih p1 rest p2 hr v hv

/-! ## Locality: reads below a length bound ignore appended bytes -/

theorem read_exact_append (buf extra : Bytes) (pos n : Nat)
    (h : pos + n ≤ buf.length) :
    read_exact (buf ++ extra) pos n = read_exact buf pos n := by
  unfold read_exact
  have hlen : pos + n ≤ (buf ++ extra).length := by
    simp only [List.length_append]
    omega
  rw [if_pos hlen, if_pos h]
  have hdrop : (buf ++ extra).drop pos = buf.drop pos ++ extra :=
    List.drop_append_of_le_length (by omega)
  have htake : (buf.drop pos ++ extra).take n = (buf.drop pos).take n :=
    List.take_append_of_le_length (by simp [List.length_drop]; omega)
  rw [hdrop, htake]

theorem read_u32_append (buf extra : Bytes) (pos : Nat)
    (h : pos + 4 ≤ buf.length) :
    read_u32 (buf ++ extra) pos = read_u32 buf pos := by
  unfold read_u32
  rw [read_exact_append buf extra pos 4 h]

theorem readFloats_append (buf extra : Bytes) :
    ∀ (n pos : Nat), pos + 4 * n ≤ buf.length →
      readFloats (buf ++ extra) pos n = readFloats buf pos n := by
  intro n
  induction n with
  | zero => intro pos _; rfl
  | succ n ih =>
      intro pos hle
      simp only [readFloats, read_f32]
      rw [read_u32_append buf extra pos (by omega)]
      cases hv : read_u32 buf pos with
      | error e => rfl
      | ok r1 =>
        obtain ⟨v, p1⟩ := r1
        have hp1 : p1 = pos + 4 := (read_u32_inv buf pos v p1 hv).1
        dsimp only
        rw [ih p1 (by omega)]

theorem readVectorsLoop_append (buf extra : Bytes) (d : Nat) :
    ∀ (c pos : Nat), pos + 4 * d * c ≤ buf.length →
      readVectorsLoop (buf ++ extra) pos c d = readVectorsLoop buf pos c d := by
  intro c
  induction c with
  | zero => intro pos _; rfl
  | succ c ih =>
      intro pos hle
      have hmul : 4 * d * (c + 1) = 4 * d + 4 * d * c := by ring
      simp only [readVectorsLoop]
      rw [readFloats_append buf extra d pos (by omega)]
      cases hf : readFloats buf pos d with
      | error e => rfl
      | ok r1 =>
        obtain ⟨data, p1⟩ := r1
        have hp1 : p1 = pos + 4 * d := (readFloats_inv buf d pos data p1 hf).1
        dsimp only
        rw [ih p1 (by omega)]

theorem header_read_append (buf extra : Bytes) (h : 16 ≤ buf.length) :
    SegmentHeader.read (buf ++ extra) 0 = SegmentHeader.read buf 0 := by
  unfold SegmentHeader.read
  rw [read_exact_append buf extra 0 4 (by omega)]
  cases hm : read_exact buf 0 4 with
  | error e => rfl
  | ok r1 =>
    obtain ⟨magic, p1⟩ := r1
    have hp1 : p1 = 4 := by
      have := (read_exact_inv buf magic 0 4 p1 hm).1
      omega
    dsimp only
    by_cases hmg : magic = MAGIC
    · simp only [if_pos hmg]
      rw [read_u32_append buf extra p1 (by omega)]
      cases hv : read_u32 buf p1 with
      | error e => rfl
      | ok r2 =>
        obtain ⟨version, p2⟩ := r2
        have hp2 : p2 = p1 + 4 := (read_u32_inv buf p1 version p2 hv).1
        dsimp only
        by_cases hver : version = VERSION
        · simp only [if_pos hver]
          rw [read_u32_append buf extra p2 (by omega)]
          cases hcr : read_u32 buf p2 with
          | error e => rfl
          | ok r3 =>
            obtain ⟨count, p3⟩ := r3
            have hp3 : p3 = p2 + 4 := (read_u32_inv buf p2 count p3 hcr).1
            dsimp only
            rw [read_u32_append buf extra p3 (by omega)]
        · simp only [if_neg hver]
    · simp only [if_neg hmg]

theorem drop_replicate (a : Nat) :
    ∀ (m n : Nat), (List.replicate n a).drop m = List.replicate (n - m) a := by
  intro m
  induction m with
  | zero => intro n; simp
  | succ m ih =>
      intro n
      cases n with
      | zero => simp
      | succ n =>
          simp only [List.replicate_succ, List.drop_succ_cons, ih n,
            Nat.succ_sub_succ]

/-! ## Assorted helpers for the claim theorems -/

theorem headerBytes_length (c d : Nat) : (headerBytes c d).length = 16 := by
  simp [headerBytes, SegmentHeader.writeBytes, MAGIC, toLeBytes_length]

theorem read_exact_head (buf : Bytes) (h : 4 ≤ buf.length) :
    read_exact buf 0 4 = .ok (buf.take 4, 4) := by
  unfold read_exact
  rw [if_pos (by omega)]
  simp

theorem read_exact_eof (buf : Bytes) (pos n : Nat) (h : buf.length < pos + n) :
    read_exact buf pos n = .error .unexpectedEof := by
  unfold read_exact
  rw [if_neg (by omega)]

theorem read_u32_take (buf : Bytes) (pos : Nat) (h : pos + 4 ≤ buf.length) :
    read_u32 buf pos = .ok (leVal ((buf.drop pos).take 4), pos + 4) := by
  unfold read_u32 read_exact
  rw [if_pos h]

theorem read_u32_eof (buf : Bytes) (pos : Nat) (h : buf.length < pos + 4) :
    read_u32 buf pos = .error .unexpectedEof := by
  unfold read_u32 read_exact
  rw [if_neg (by omega)]

theorem len4_of_take (buf : Bytes) (h : buf.take 4 = MAGIC) : 4 ≤ buf.length := by
  have hc := congrArg List.length h
  simp only [List.length_take, MAGIC, List.length_cons, List.length_nil] at hc
  omega

theorem Vector.new_data (l : List Nat) : (Vector.new l).data = l := rfl

theorem vector_new_eta (v : Vector) (h : v.metadata = []) :
    Vector.new v.data = v := by
  obtain ⟨data, metadata⟩ := v
  simp only [Vector.metadata] at h
  rw [Vector.new, h]

theorem writeVectors_data_only :
    ∀ (vs vs' : List Vector) (dim i : Nat),
      vs.map Vector.data = vs'.map Vector.data →
      writeVectors vs dim i = writeVectors vs' dim i := by
  intro vs
  induction vs with
  | nil =>
      intro vs' dim i h
      cases vs' with
      | nil => rfl
      | cons v' rest' => simp at h
  | cons v rest ih =>
      intro vs' dim i h
      cases vs' with
      | nil => simp at h
      | cons v' rest' =>
          simp only [List.map_cons, List.cons.injEq] at h
          obtain ⟨hdata, hrest⟩ := h
          simp only [writeVectors, Vector.dimension, hdata,
            ih rest' dim (i + 1) hrest]

/-- One-step unfolding of `write_segment` on a non-empty input whose writing
loop is known to succeed. -/
theorem write_segment_cons_eq (v0 : Vector) (rest : List Vector) (body : Bytes)
    (hw : writeVectors (v0 :: rest) (v0.dimension % 4294967296) 0 = .ok body) :
    write_segment (v0 :: rest)
      = .ok ((SegmentHeader.mk VERSION ((v0 :: rest).length % 4294967296)
          (v0.dimension % 4294967296)).writeBytes ++ body) := by
  simp only [write_segment, List.head?_cons]
  rw [hw]

/-- One-step unfolding of `read_vectors_range` when the header read, the
bounds check and the reading loop are each known. -/
theorem read_vectors_range_eq (buf : Bytes) (hdr : SegmentHeader)
    (start count : Nat) (vsout : List Vector) (p : Nat)
    (hh : SegmentHeader.read buf 0 = .ok (hdr, 16))
    (hck : ¬ hdr.count < (start + count) % 4294967296)
    (hl : readVectorsLoop buf (hdr.vector_offset start) count hdr.dimension
        = .ok (vsout, p)) :
    read_vectors_range buf start count = .ok vsout := by
  unfold read_vectors_range
  rw [hh]
  dsimp only
  rw [if_neg hck, hl]

/-- Reading back a structured segment image (header, packed payload, then
arbitrary trailing bytes) recovers the written vectors, with fresh empty
metadata. -/
theorem read_segment_structured (c d : Nat) (vs : List Vector) (t : Bytes)
    (hc : vs.length = c) (hcount : c < 4294967296) (hdim : d < 4294967296)
    (hd : ∀ v ∈ vs, v.data.length = d)
    (hbits : ∀ v ∈ vs, ∀ x ∈ v.data, x < 4294967296) :
    read_segment (headerBytes c d ++ (segBody vs ++ t))
      = .ok (vs.map (fun v => Vector.new v.data)) := by
  unfold read_segment
  rw [header_read_ok c d _ hcount hdim]
  dsimp only
  have h0 : (headerBytes c d ++ (segBody vs ++ t)).drop 0
      = headerBytes c d ++ (segBody vs ++ t) := by simp
  have hdrop : (headerBytes c d ++ (segBody vs ++ t)).drop 16 = segBody vs ++ t := by
    have h16 := drop_after _ (headerBytes c d) _ 0 h0
    rw [headerBytes_length] at h16
    exact h16
  have hloop := readVectorsLoop_eq (headerBytes c d ++ (segBody vs ++ t)) vs t d
    hd hbits 16 hdrop
  rw [hc] at hloop
  rw [hloop]

/-! ## Claim theorems -/

/-- C1 (Round-trip): writing any non-empty sequence of equal-length vectors
with `write_segment` and reading the resulting file with `read_segment`
returns a sequence of the same length whose vectors carry exactly the input
component lists (floats are modelled by their 32-bit patterns, so equality
is bit-for-bit), in the same order.  The hypotheses state the data model's
well-formedness: fewer than `2^32` vectors, dimension below `2^32`, and
every component a 32-bit pattern. -/
theorem round_trip (vs : List Vector) (d : Nat)
    (hne : vs ≠ [])
    (hd : ∀ v ∈ vs, v.data.length = d)
    (hcount : vs.length < 4294967296)
    (hdim : d < 4294967296)
    (hbits : ∀ v ∈ vs, ∀ x ∈ v.data, x < 4294967296) :
    (write_segment vs).bind read_segment
      = .ok (vs.map (fun v => Vector.new v.data)) := by
  rw [write_segment_eq vs d hne hd hdim]
  show read_segment (headerBytes (vs.length % 4294967296) d ++ segBody vs) = _
  rw [Nat.mod_eq_of_lt hcount]
  have := read_segment_structured vs.length d vs [] rfl hcount hdim hd hbits
  rw [List.append_nil] at this
  exact this

/-- C1 witness: a concrete two-vector round trip. -/
theorem round_trip_witness :
    (write_segment [Vector.new [1, 2], Vector.new [3, 4]]).bind read_segment
      = .ok [Vector.new [1, 2], Vector.new [3, 4]] := by
  have h := round_trip [Vector.new [1, 2], Vector.new [3, 4]] 2
    (by decide) (by decide) (by decide) (by decide) (by decide)
  simpa using h

/-- C4 counterexample: at `count = dimension = 2^32 - 1` (legal 32-bit field
values) the `u64` products in `file_size` and `vector_offset` wrap modulo
`2^64`, so neither equals the mathematical value `16 + count * dimension * 4`
(about `2^66`), contradicting the claim that the arithmetic cannot
overflow for any 32-bit field values. -/
theorem offset_overflow_cex :
    (SegmentHeader.mk VERSION 4294967295 4294967295).file_size
        ≠ 16 + 4294967295 * 4294967295 * 4
    ∧ (SegmentHeader.mk VERSION 4294967295 4294967295).vector_offset 4294967295
        ≠ 16 + 4294967295 * 4294967295 * 4 := by
  constructor
  · decide
  · decide

/-- C4 (amended): `vector_offset` and `file_size` compute
`16 + index * dimension * 4` and `16 + count * dimension * 4` in 64-bit
arithmetic, and equal the mathematical values exactly when those values fit
below `2^64`; beyond that the `u64` arithmetic wraps. -/
theorem offset_arith (h : SegmentHeader) (index : Nat)
    (h1 : 16 + index * h.dimension * 4 < 18446744073709551616)
    (h2 : 16 + h.count * h.dimension * 4 < 18446744073709551616) :
    h.vector_offset index = 16 + index * h.dimension * 4
    ∧ h.file_size = 16 + h.count * h.dimension * 4 := by
  unfold SegmentHeader.vector_offset SegmentHeader.file_size HEADER_SIZE
  exact ⟨Nat.mod_eq_of_lt h1, Nat.mod_eq_of_lt h2⟩

/-- C4 witness: concrete in-range header. -/
theorem offset_arith_witness :
    (SegmentHeader.mk VERSION 10 3).vector_offset 2 = 16 + 2 * 3 * 4
    ∧ (SegmentHeader.mk VERSION 10 3).file_size = 16 + 10 * 3 * 4 :=
  offset_arith (SegmentHeader.mk VERSION 10 3) 2 (by norm_num) (by norm_num)

/-- C7 (Empty segment): `write_segment []` succeeds, records count 0 and
dimension 0 in the header, produces exactly `HEADER_SIZE` (16) bytes, and
`read_segment` on that file returns the empty sequence. -/
theorem empty_segment :
    write_segment [] = .ok ((SegmentHeader.mk VERSION 0 0).writeBytes)
    ∧ ((SegmentHeader.mk VERSION 0 0).writeBytes).length = HEADER_SIZE
    ∧ read_segment ((SegmentHeader.mk VERSION 0 0).writeBytes) = .ok []
    ∧ read_segment_header ((SegmentHeader.mk VERSION 0 0).writeBytes)
        = .ok (SegmentHeader.mk VERSION 0 0) := by
  refine ⟨by decide, by decide, by decide, by decide⟩

/-- C10 (Implicit): `read_segment_header` succeeds on any stream whose first
16 bytes form a valid header, for every payload `rest` — including one
shorter than `count * dimension * 4` bytes — so it performs no consistency
check between the declared geometry and the actual file length. -/
theorem read_header_ignores_payload (c d : Nat) (rest : Bytes)
    (hc : c < 4294967296) (hd : d < 4294967296) :
    read_segment_header (headerBytes c d ++ rest)
      = .ok (SegmentHeader.mk VERSION c d) := by
  unfold read_segment_header
  rw [header_read_ok c d rest hc hd]

/-- C10 witness: header declares 3 vectors of dimension 3 (36 payload bytes)
but no payload bytes follow; the header read still succeeds. -/
theorem read_header_ignores_payload_witness :
    read_segment_header (headerBytes 3 3 ++ [])
      = .ok (SegmentHeader.mk VERSION 3 3) :=
  read_header_ignores_payload 3 3 [] (by norm_num) (by norm_num)

/-- C3 counterexample: on a well-formed file with `count = 5`,
`dimension = 0`, calling `read_vectors_range` with `start = 2^32 - 1` and
`count_requested = 1` has mathematical sum `2^32 > 5`, so the claim demands
a `RangeOutOfBounds` failure; instead the `u32` addition wraps to `0`, the
check passes, and the call succeeds. -/
theorem range_check_wraps_cex :
    5 < 4294967295 + 1
    ∧ read_vectors_range (headerBytes 5 0) 4294967295 1 = .ok [Vector.new []] := by
  constructor
  · decide
  · decide

/-- C3 (amended): `read_vectors_range` computes `start + count_requested` as
a 32-bit addition, wrapping modulo `2^32`, and fails with `RangeOutOfBounds`
exactly when the wrapped sum exceeds the header's count; when the
mathematical sum reaches `2^32` the check can wrap and pass instead of
failing. -/
theorem range_check_iff (c d start count : Nat) (rest : Bytes)
    (hc : c < 4294967296) (hd : d < 4294967296) :
    (read_vectors_range (headerBytes c d ++ rest) start count
        = .error (.rangeOutOfBounds start ((start + count) % 4294967296) c))
    ↔ c < (start + count) % 4294967296 := by
  have hh := header_read_ok c d rest hc hd
  unfold read_vectors_range
  rw [hh]
  dsimp only
  by_cases hlt : c < (start + count) % 4294967296
  · simp [hlt]
  · rw [if_neg hlt]
    simp only [hlt, iff_false]
    cases hr : readVectorsLoop (headerBytes c d ++ rest)
        ((SegmentHeader.mk VERSION c d).vector_offset start) count d with
    | error e =>
        have he := readVectorsLoop_err _ d count _ e hr
        subst he
        simp
    | ok r => simp

/-- C3 witness for the amended claim: requesting `start = 3`,
`count_requested = 4` against `count = 5` fails with `RangeOutOfBounds`
carrying the (unwrapped, in-range) sum 7. -/
theorem range_check_iff_witness :
    read_vectors_range (headerBytes 5 0 ++ []) 3 4
      = .error (.rangeOutOfBounds 3 7 5) := by
  have h := (range_check_iff 5 0 3 4 [] (by norm_num) (by norm_num)).mpr (by norm_num)
  simpa using h

/-- C6 counterexample: the writer compares lengths after an `as u32` cast,
which wraps.  The second vector here has length `2^32 + 3`, different from
the first vector's length 3, so the claim demands a `DimensionMismatch`
failure at index 1; the cast wraps `2^32 + 3` to 3 and the write succeeds
instead. -/
theorem dimension_check_wraps_cex :
    write_segment [Vector.new [0, 0, 0], Vector.new (List.replicate 4294967299 0)]
      = .ok (headerBytes 2 3
          ++ segBody [Vector.new [0, 0, 0], Vector.new (List.replicate 4294967299 0)]) := by
  have hw : writeVectors
      [Vector.new [0, 0, 0], Vector.new (List.replicate 4294967299 0)] 3 0
      = .ok (segBody [Vector.new [0, 0, 0], Vector.new (List.replicate 4294967299 0)]) := by
    refine writeVectors_ok _ 3 ?_ 0
    intro v hv
    rcases List.mem_cons.mp hv with h | hv2
    · rw [h]; norm_num [Vector.new]
    · rcases List.mem_cons.mp hv2 with h | h
      · subst h
        rw [Vector.new_data, List.length_replicate]
      · exact absurd h (by simp)
  have hdim3 : (Vector.new [0, 0, 0] : Vector).dimension % 4294967296 = 3 := by
    norm_num [Vector.new, Vector.dimension]
  have hw' : writeVectors
      [Vector.new [0, 0, 0], Vector.new (List.replicate 4294967299 0)]
      ((Vector.new [0, 0, 0] : Vector).dimension % 4294967296) 0
      = .ok (segBody [Vector.new [0, 0, 0], Vector.new (List.replicate 4294967299 0)]) := by
    rw [hdim3]
    exact hw
  have h := write_segment_cons_eq (Vector.new [0, 0, 0])
    [Vector.new (List.replicate 4294967299 0)] _ hw'
  have hlen2 : ([Vector.new [0, 0, 0],
      Vector.new (List.replicate 4294967299 0)] : List Vector).length % 4294967296 = 2 := by
    norm_num [List.length_cons]
  rw [hdim3, hlen2] at h
  exact h

/-- C6 (amended): `write_segment` takes the dimension from the first
vector's length cast `as u32`; at the first position whose vector's length,
cast `as u32`, differs from that dimension, it fails with the source's
dimension-mismatch error carrying the expected (32-bit) dimension, the
actual (uncast) length, and the position.  (For vectors shorter than `2^32`
the cast is the identity, giving the claim's original reading.) -/
theorem write_dimension_mismatch (v0 : Vector) (good : List Vector)
    (bad : Vector) (rest : List Vector)
    (hgood : ∀ v ∈ good, v.data.length % 4294967296 = v0.data.length % 4294967296)
    (hbad : bad.data.length % 4294967296 ≠ v0.data.length % 4294967296) :
    write_segment (v0 :: (good ++ bad :: rest))
      = .error (.dimensionMismatch (1 + good.length) bad.data.length
          (v0.data.length % 4294967296)) := by
  have hw := writeVectors_first_mismatch good bad rest
    (v0.data.length % 4294967296) hgood hbad 1
  have hw0 : writeVectors (v0 :: (good ++ bad :: rest))
      (v0.data.length % 4294967296) 0
      = .error (.dimensionMismatch (1 + good.length) bad.data.length
          (v0.data.length % 4294967296)) := by
    simp [writeVectors, Vector.dimension, hw]
  simp only [write_segment, List.head?_cons, Vector.dimension]
  rw [hw0]

/-- C6 witness: writing a length-3 then a length-4 vector fails with
expected 3, got 4, index 1 — the claim's concrete scenario. -/
theorem write_dimension_mismatch_witness :
    write_segment [Vector.new [1, 2, 3], Vector.new [1, 2, 3, 4]]
      = .error (.dimensionMismatch 1 4 3) := by
  have h := write_dimension_mismatch (Vector.new [1, 2, 3]) []
    (Vector.new [1, 2, 3, 4]) [] (by simp) (by decide)
  simpa using h

/-- C9 (Metadata not persisted): `write_segment` depends only on the
component lists (two inputs agreeing on `data` produce identical results,
metadata contributing no bytes), and every vector returned by
`read_segment`, `read_vector_at` or `read_vectors_range` carries an empty
metadata map. -/
theorem metadata_not_persisted :
    (∀ vs vs' : List Vector, vs.map Vector.data = vs'.map Vector.data →
        write_segment vs = write_segment vs')
    ∧ (∀ (buf : Bytes) (ws : List Vector), read_segment buf = .ok ws →
        ∀ v ∈ ws, v.metadata = [])
    ∧ (∀ (buf : Bytes) (i : Nat) (v : Vector), read_vector_at buf i = .ok v →
        v.metadata = [])
    ∧ (∀ (buf : Bytes) (s c : Nat) (ws : List Vector),
        read_vectors_range buf s c = .ok ws → ∀ v ∈ ws, v.metadata = []) := by
  refine ⟨?_, ?_, ?_, ?_⟩
  · intro vs vs' h
    have hlen : vs.length = vs'.length := by
      have := congrArg List.length h
      simpa using this
    have hhead : (match vs.head? with
        | some v => v.dimension
        | none => 0)
        = (match vs'.head? with
        | some v => v.dimension
        | none => 0) := by
      cases vs with
      | nil =>
          cases vs' with
          | nil => rfl
          | cons v' r' => simp at h
      | cons v r =>
          cases vs' with
          | nil => simp at h
          | cons v' r' =>
              simp only [List.map_cons, List.cons.injEq] at h
              simp [List.head?_cons, Vector.dimension, h.1]
    simp only [write_segment]
    rw [hhead, hlen, writeVectors_data_only vs vs' _ 0 h]
  · intro buf ws h
    unfold read_segment at h
    cases hh : SegmentHeader.read buf 0 with
    | error e => simp [hh] at h
    | ok r =>
      obtain ⟨hdr, pos⟩ := r
      simp only [hh] at h
      cases hl : readVectorsLoop buf pos hdr.count hdr.dimension with
      | error e => simp [hl] at h
      | ok r2 =>
        obtain ⟨vecs, p⟩ := r2
        simp only [hl, Except.ok.injEq] at h
        subst h
        exact readVectorsLoop_metadata buf hdr.dimension hdr.count pos vecs p hl
  · intro buf i v h
    unfold read_vector_at at h
    cases hh : SegmentHeader.read buf 0 with
    | error e => simp [hh] at h
    | ok r =>
      obtain ⟨hdr, pos⟩ := r
      simp only [hh] at h
      by_cases hic : hdr.count ≤ i
      · rw [if_pos hic] at h
        exact absurd h (by simp)
      · rw [if_neg hic] at h
        cases hf : readFloats buf (hdr.vector_offset i) hdr.dimension with
        | error e => simp [hf] at h
        | ok r2 =>
          obtain ⟨data, p⟩ := r2
          simp only [hf, Except.ok.injEq] at h
          rw [← h]
          rfl
  · intro buf s c ws h
    unfold read_vectors_range at h
    cases hh : SegmentHeader.read buf 0 with
    | error e => simp [hh] at h
    | ok r =>
      obtain ⟨hdr, pos⟩ := r
      simp only [hh] at h
      by_cases hck : hdr.count < (s + c) % 4294967296
      · rw [if_pos hck] at h
        exact absurd h (by simp)
      · rw [if_neg hck] at h
        cases hl : readVectorsLoop buf (hdr.vector_offset s) c hdr.dimension with
        | error e => simp [hl] at h
        | ok r2 =>
          obtain ⟨vecs, p⟩ := r2
          simp only [hl, Except.ok.injEq] at h
          subst h
          exact readVectorsLoop_metadata buf hdr.dimension c _ vecs p hl

/-- C9 witness: two single-vector inputs differing only in metadata produce
identical files. -/
theorem metadata_not_persisted_witness :
    write_segment [Vector.mk [1] [("k", "v")]] = write_segment [Vector.new [1]] :=
  metadata_not_persisted.1 _ _ rfl

/-- C5 (Header decode discipline), with the source's check order: a stream
of at least 4 bytes whose first 4 bytes differ from the magic fails with the
invalid-magic error regardless of the rest; correct magic with at least 8
bytes but a version other than the supported one fails with the
unsupported-version error; fewer than 16 bytes — when neither earlier,
higher-priority check already rejects — fails with the end-of-file error
(`TruncatedInput`); and correct magic, supported version and 16 bytes
present succeed, returning the decoded fields. -/
theorem header_decode_discipline (buf : Bytes) :
    (4 ≤ buf.length → buf.take 4 ≠ MAGIC →
        SegmentHeader.read buf 0 = .error (.invalidMagic (buf.take 4)))
    ∧ (buf.take 4 = MAGIC → 8 ≤ buf.length →
        leVal ((buf.drop 4).take 4) ≠ VERSION →
        SegmentHeader.read buf 0
          = .error (.unsupportedVersion (leVal ((buf.drop 4).take 4))))
    ∧ (buf.length < 16 →
        ¬(4 ≤ buf.length ∧ buf.take 4 ≠ MAGIC) →
        ¬(buf.take 4 = MAGIC ∧ 8 ≤ buf.length
            ∧ leVal ((buf.drop 4).take 4) ≠ VERSION) →
        SegmentHeader.read buf 0 = .error .unexpectedEof)
    ∧ (buf.take 4 = MAGIC → leVal ((buf.drop 4).take 4) = VERSION →
        16 ≤ buf.length →
        SegmentHeader.read buf 0
          = .ok (⟨VERSION, leVal ((buf.drop 8).take 4),
              leVal ((buf.drop 12).take 4)⟩, 16)) := by
  refine ⟨?_, ?_, ?_, ?_⟩
  · intro h4 hmg
    unfold SegmentHeader.read
    rw [read_exact_head buf h4]
    dsimp only
    rw [if_neg hmg]
  · intro hmg h8 hver
    unfold SegmentHeader.read
    rw [read_exact_head buf (len4_of_take buf hmg)]
    dsimp only
    rw [if_pos hmg, read_u32_take buf 4 (by omega)]
    dsimp only
    rw [if_neg hver]
  · intro h16 hA hB
    unfold SegmentHeader.read
    by_cases h4 : 4 ≤ buf.length
    · have hmg : buf.take 4 = MAGIC := by
        by_contra hne
        exact hA ⟨h4, hne⟩
      rw [read_exact_head buf h4]
      dsimp only
      rw [if_pos hmg]
      by_cases h8 : 8 ≤ buf.length
      · have hver : leVal ((buf.drop 4).take 4) = VERSION := by
          by_contra hne
          exact hB ⟨hmg, h8, hne⟩
        rw [read_u32_take buf 4 (by omega)]
        dsimp only
        rw [if_pos hver]
        by_cases h12 : 12 ≤ buf.length
        · rw [read_u32_take buf 8 (by omega)]
          dsimp only
          rw [read_u32_eof buf 12 (by omega)]
        · rw [read_u32_eof buf 8 (by omega)]
      · rw [read_u32_eof buf 4 (by omega)]
    · rw [read_exact_eof buf 0 4 (by omega)]
  · intro hmg hver h16
    unfold SegmentHeader.read
    rw [read_exact_head buf (by omega)]
    dsimp only
    rw [if_pos hmg, read_u32_take buf 4 (by omega)]
    dsimp only
    rw [if_pos hver, read_u32_take buf 8 (by omega)]
    dsimp only
    rw [read_u32_take buf 12 (by omega)]
    dsimp only
    rw [hver]

/-- C5 witness: four zero bytes have the wrong magic and decode fails with
the invalid-magic error. -/
theorem header_decode_discipline_witness :
    SegmentHeader.read [0, 0, 0, 0] 0 = .error (.invalidMagic [0, 0, 0, 0]) := by
  have h := (header_decode_discipline [0, 0, 0, 0]).1 (by decide) (by decide)
  simpa using h

/-- C2 (Random-access equivalence): on any stream (of `u64`-addressable
size) on which `read_segment` succeeds, `read_vector_at` succeeds at every
index below the returned count and returns exactly the vector at that
position of `read_segment`'s result: the seek-based single read agrees with
the sequential full read. -/
theorem readAt_eq_readAll (buf : Bytes) (ws : List Vector) (index : Nat)
    (hbuf : buf.length < 18446744073709551616)
    (hall : read_segment buf = .ok ws) (hidx : index < ws.length) :
    read_vector_at buf index = .ok ws[index] := by
  unfold read_segment at hall
  cases hh : SegmentHeader.read buf 0 with
  | error e => simp [hh] at hall
  | ok r =>
    obtain ⟨hdr, pos⟩ := r
    simp only [hh] at hall
    have hpos : pos = 16 := by
      have := header_read_adv buf hdr 0 pos hh
      omega
    subst hpos
    cases hl : readVectorsLoop buf 16 hdr.count hdr.dimension with
    | error e => simp [hl] at hall
    | ok r2 =>
      obtain ⟨vecs, p⟩ := r2
      simp only [hl, Except.ok.injEq] at hall
      subst hall
      obtain ⟨hlen, hp, hidxf, hbound⟩ :=
        readVectorsLoop_inv buf hdr.dimension hdr.count 16 vecs p hl
      have hic : index < hdr.count := by omega
      have hlt : 16 + index * hdr.dimension * 4 < 18446744073709551616 := by
        rcases Nat.eq_zero_or_pos hdr.dimension with hd0 | hd0
        · rw [hd0]
          simp
        · have hb := hbound hd0 (by omega)
          have e1 : 4 * hdr.dimension * (index + 1)
              = index * hdr.dimension * 4 + 4 * hdr.dimension := by ring
          have e2 : 4 * hdr.dimension * (index + 1) ≤ 4 * hdr.dimension * hdr.count :=
            Nat.mul_le_mul_left (4 * hdr.dimension) (by omega)
          have e3 : (0 : Nat) ≤ 4 * hdr.dimension := Nat.zero_le _
          linarith
      have hoff : hdr.vector_offset index = 16 + 4 * hdr.dimension * index := by
        unfold SegmentHeader.vector_offset HEADER_SIZE
        rw [Nat.mod_eq_of_lt hlt]
        ring
      unfold read_vector_at
      rw [hh]
      dsimp only
      rw [if_neg (by omega : ¬ hdr.count ≤ index)]
      have hread := (hidxf index hidx).1
      rw [hoff, hread]
      dsimp only
      rw [vector_new_eta vecs[index] (hidxf index hidx).2]

/-- C8 counterexample: trailing bytes are not always invisible.  On the
exact-size well-formed file with `count = 5`, `dimension = 1`, the request
`start = 2^32 - 1`, `count_requested = 6` wraps the 32-bit bounds check
(sum `2^32 + 5` wraps to `5 ≤ 5`), seeks far past the declared data, and
fails with the end-of-file error; appending `4 * 2^32` zero bytes makes the
same call succeed, so the extra bytes changed `read_vectors_range`'s
result, contradicting the claim for all three readers. -/
theorem trailing_bytes_cex :
    read_vectors_range (headerBytes 5 1 ++ List.replicate 20 0) 4294967295 6
        = .error .unexpectedEof
    ∧ read_vectors_range ((headerBytes 5 1 ++ List.replicate 20 0)
          ++ List.replicate 17179869184 0) 4294967295 6
        = .ok (List.replicate 6 (Vector.new [0])) := by
  constructor
  · decide
  · set B := (headerBytes 5 1 ++ List.replicate 20 0)
      ++ List.replicate 17179869184 (0 : Nat) with hB
    have hh : SegmentHeader.read B 0 = .ok (⟨VERSION, 5, 1⟩, 16) := by
      rw [hB, List.append_assoc]
      exact header_read_ok 5 1 _ (by norm_num) (by norm_num)
    have hlen36 : (headerBytes 5 1 ++ List.replicate 20 (0 : Nat)).length = 36 := by
      decide
    have h1 : B.drop 36 = List.replicate 17179869184 (0 : Nat) := by
      rw [hB, ← hlen36]
      exact List.drop_left _ _
    have h3 : (List.replicate 17179869184 (0 : Nat)).drop 17179869160
        = List.replicate 24 0 := by
      rw [drop_replicate]
    have h2 : B.drop 17179869196 = List.replicate 24 (0 : Nat) := by
      calc B.drop 17179869196 = (B.drop 36).drop 17179869160 := by
            rw [List.drop_drop]
          _ = (List.replicate 17179869184 (0 : Nat)).drop 17179869160 := by rw [h1]
          _ = List.replicate 24 0 := h3
    have hsb : segBody (List.replicate 6 (Vector.new [0])) ++ []
        = List.replicate 24 (0 : Nat) := by decide
    have hdrop : B.drop 17179869196
        = segBody (List.replicate 6 (Vector.new [0])) ++ [] := by
      rw [hsb]
      exact h2
    have hloop := readVectorsLoop_eq B (List.replicate 6 (Vector.new [0])) [] 1
      (by decide) (by decide) 17179869196 hdrop
    have hlen6 : (List.replicate 6 (Vector.new [0])).length = 6 := by decide
    rw [hlen6] at hloop
    have hoff : (⟨VERSION, 5, 1⟩ : SegmentHeader).vector_offset 4294967295
        = 17179869196 := by
      unfold SegmentHeader.vector_offset HEADER_SIZE
      norm_num
    have hl' : readVectorsLoop B
        ((⟨VERSION, 5, 1⟩ : SegmentHeader).vector_offset 4294967295) 6
        (⟨VERSION, 5, 1⟩ : SegmentHeader).dimension
        = .ok ((List.replicate 6 (Vector.new [0])).map (fun v => Vector.new v.data),
            17179869196 + 4 * 1 * 6) := by
      rw [hoff]
      exact hloop
    have h8 := read_vectors_range_eq B ⟨VERSION, 5, 1⟩ 4294967295 6 _ _ hh
      (by norm_num) hl'
    have hmap : (List.replicate 6 (Vector.new [0])).map (fun v => Vector.new v.data)
        = List.replicate 6 (Vector.new [0]) := by decide
    rw [hmap] at h8
    exact h8

/-- C8 (amended): trailing bytes appended after the `16 + count*dimension*4`
bytes declared by the header never change the result of `read_segment` or
`read_vector_at`, and do not change `read_vectors_range` for any request
whose mathematical `start + count_requested` stays within the declared
count (so the 32-bit bounds check cannot wrap); in the wrapping case the
extra bytes can become visible, as the counterexample shows. -/
theorem trailing_bytes_ignored (c d : Nat) (vs : List Vector) (extra : Bytes)
    (hc : vs.length = c) (hcount : c < 4294967296) (hdim : d < 4294967296)
    (hd : ∀ v ∈ vs, v.data.length = d) :
    read_segment ((headerBytes c d ++ segBody vs) ++ extra)
        = read_segment (headerBytes c d ++ segBody vs)
    ∧ (∀ index : Nat,
        read_vector_at ((headerBytes c d ++ segBody vs) ++ extra) index
          = read_vector_at (headerBytes c d ++ segBody vs) index)
    ∧ (∀ start count : Nat, start + count ≤ c →
        read_vectors_range ((headerBytes c d ++ segBody vs) ++ extra) start count
          = read_vectors_range (headerBytes c d ++ segBody vs) start count) := by
  have hexlen : (headerBytes c d ++ segBody vs).length = 16 + 4 * d * c := by
    rw [List.length_append, headerBytes_length, segBody_length vs d hd, hc]
  have h16 : 16 ≤ (headerBytes c d ++ segBody vs).length := by
    rw [hexlen]
    exact Nat.le_add_right 16 _
  have hha : SegmentHeader.read ((headerBytes c d ++ segBody vs) ++ extra) 0
      = SegmentHeader.read (headerBytes c d ++ segBody vs) 0 :=
    header_read_append _ extra h16
  have hh : SegmentHeader.read (headerBytes c d ++ segBody vs) 0
      = .ok (⟨VERSION, c, d⟩, 16) := header_read_ok c d (segBody vs) hcount hdim
  refine ⟨?_, ?_, ?_⟩
  · unfold read_segment
    rw [hha, hh]
    dsimp only
    rw [readVectorsLoop_append _ extra d c 16 (le_of_eq hexlen.symm)]
  · intro index
    unfold read_vector_at
    rw [hha, hh]
    dsimp only
    by_cases hci : c ≤ index
    · simp only [if_pos hci]
    · simp only [if_neg hci]
      have hmodle : (⟨VERSION, c, d⟩ : SegmentHeader).vector_offset index
          ≤ 16 + index * d * 4 := by
        unfold SegmentHeader.vector_offset HEADER_SIZE
        exact Nat.mod_le _ _
      have e1 : 4 * d * (index + 1) = index * d * 4 + 4 * d := by ring
      have e2 : 4 * d * (index + 1) ≤ 4 * d * c :=
        Nat.mul_le_mul_left (4 * d) (by omega)
      have hble : (⟨VERSION, c, d⟩ : SegmentHeader).vector_offset index + 4 * d
          ≤ (headerBytes c d ++ segBody vs).length := by
        rw [hexlen]
        linarith
      rw [readFloats_append _ extra d _ hble]
  · intro start count hsc
    unfold read_vectors_range
    rw [hha, hh]
    dsimp only
    by_cases hck : c < (start + count) % 4294967296
    · simp only [if_pos hck]
    · simp only [if_neg hck]
      have hmodle : (⟨VERSION, c, d⟩ : SegmentHeader).vector_offset start
          ≤ 16 + start * d * 4 := by
        unfold SegmentHeader.vector_offset HEADER_SIZE
        exact Nat.mod_le _ _
      have e1 : 4 * d * (start + count) = start * d * 4 + 4 * d * count := by ring
      have e2 : 4 * d * (start + count) ≤ 4 * d * c :=
        Nat.mul_le_mul_left (4 * d) hsc
      have hble : (⟨VERSION, c, d⟩ : SegmentHeader).vector_offset start
          + 4 * d * count ≤ (headerBytes c d ++ segBody vs).length := by
        rw [hexlen]
        linarith
      rw [readVectorsLoop_append _ extra d count _ hble]

/-- C8 witness for the amended claim: three junk bytes appended after a
one-vector segment leave `read_segment`'s result unchanged. -/
theorem trailing_bytes_ignored_witness :
    read_segment ((headerBytes 1 1 ++ segBody [Vector.new [5]]) ++ [9, 9, 9])
      = read_segment (headerBytes 1 1 ++ segBody [Vector.new [5]]) :=
  (trailing_bytes_ignored 1 1 [Vector.new [5]] [9, 9, 9] (by decide) (by decide)
    (by decide) (by decide)).1

/-- C2 witness: a concrete two-vector file, random access at index 1. -/
theorem readAt_eq_readAll_witness :
    read_vector_at
      [86, 69, 67, 84, 1, 0, 0, 0, 2, 0, 0, 0, 1, 0, 0, 0, 7, 0, 0, 0, 9, 0, 0, 0] 1
      = .ok (Vector.new [9]) := by
  have h := readAt_eq_readAll
    [86, 69, 67, 84, 1, 0, 0, 0, 2, 0, 0, 0, 1, 0, 0, 0, 7, 0, 0, 0, 9, 0, 0, 0]
    [Vector.new [7], Vector.new [9]] 1 (by norm_num) (by decide) (by decide)
  simpa using h

end SegmentFormat
